import Mathlib

/-!
A shallow embedding of `src/list-formatter.ts` (repository MSWordLists).

JavaScript strings are modelled as `List Char`; `text.split('\n')` is
`splitLines`, `Array.prototype.join('\n')` is `joinLines`, and the
prefix-stripping regex `PREFIX_REGEX` is modelled alternative by
alternative with the regex's left-to-right alternation order and greedy
matching (each alternative's character classes are disjoint from `.` and
from whitespace, so the greedy match is the unique one).
-/

/-- Models JavaScript's `\s` character class, which is also the set stripped
by `String.prototype.trim`: ASCII whitespace, NBSP, OGHAM SPACE MARK, the
Unicode space separators U+2000..U+200A, LS, PS, NNBSP, MMSP, IDEOGRAPHIC
SPACE and the BOM. -/
def isWS (c : Char) : Bool :=
  c.toNat == 9 || c.toNat == 10 || c.toNat == 11 || c.toNat == 12 ||
  c.toNat == 13 || c.toNat == 32 || c.toNat == 160 || c.toNat == 0x1680 ||
  (0x2000 ≤ c.toNat && c.toNat ≤ 0x200A) || c.toNat == 0x2028 ||
  c.toNat == 0x2029 || c.toNat == 0x202F || c.toNat == 0x205F ||
  c.toNat == 0x3000 || c.toNat == 0xFEFF

/-- JavaScript's LineTerminator set: LF, CR, LS, PS. A dot in a regex
without the `s` flag matches any character except these. -/
def isLineTerm (c : Char) : Bool :=
  c.toNat == 10 || c.toNat == 13 || c.toNat == 0x2028 || c.toNat == 0x2029

/-- `line.trim() === ''`: the line is empty or whitespace-only. -/
def isBlank (line : List Char) : Bool := line.all isWS

/-- `text.split('\n')`: on the empty string JavaScript returns `[""]`. -/
def splitLines : List Char → List (List Char)
  | [] => [[]]
  | c :: cs =>
    let r := splitLines cs
    if c = '\n' then [] :: r else (c :: r.headD []) :: r.tail

/-- `lines.join('\n')`. -/
def joinLines : List (List Char) → List Char
  | [] => []
  | [l] => l
  | l :: l' :: ls => l ++ '\n' :: joinLines (l' :: ls)

/-- The character class `[-*+]` of the bullet alternative. -/
def isBulletChar (c : Char) : Bool := c == '-' || c == '*' || c == '+'

/-- The character class `\d`. -/
def isDigitChar (c : Char) : Bool := 48 ≤ c.toNat && c.toNat ≤ 57

/-- The character class `[a-zA-Z]`. -/
def isAsciiLetter (c : Char) : Bool :=
  (97 ≤ c.toNat && c.toNat ≤ 122) || (65 ≤ c.toNat && c.toNat ≤ 90)

/-- The character class `[ivxlcdmIVXLCDM]`. -/
def isRomanChar (c : Char) : Bool :=
  c == 'i' || c == 'v' || c == 'x' || c == 'l' || c == 'c' || c == 'd' ||
  c == 'm' || c == 'I' || c == 'V' || c == 'X' || c == 'L' || c == 'C' ||
  c == 'D' || c == 'M'

/-- The `\s+` that closes every alternative of `PREFIX_REGEX`: at least one
whitespace character, matched greedily, so the residual (capture group 2)
is what follows the maximal whitespace run. -/
def chompWS1 : List Char → Option (List Char)
  | [] => none
  | c :: cs => if isWS c then some (cs.dropWhile isWS) else none

/-- First alternative of `PREFIX_REGEX`: `^\s*[-*+]\s+`. -/
def bulletAlt (content : List Char) : Option (List Char) :=
  match content.dropWhile isWS with
  | [] => none
  | c :: rest => if isBulletChar c then chompWS1 rest else none

/-- Second alternative of `PREFIX_REGEX`: `^\s*\d+\.\s+`. -/
def numberAlt (content : List Char) : Option (List Char) :=
  let t := content.dropWhile isWS
  if (t.takeWhile isDigitChar).isEmpty then none
  else
    match t.dropWhile isDigitChar with
    | '.' :: rest => chompWS1 rest
    | _ => none

/-- Third alternative of `PREFIX_REGEX`: `^\s*[a-zA-Z][.)]\s+`. -/
def letterAlt (content : List Char) : Option (List Char) :=
  match content.dropWhile isWS with
  | c :: d :: rest =>
    if isAsciiLetter c && (d == '.' || d == ')') then chompWS1 rest else none
  | _ => none

/-- Fourth alternative of `PREFIX_REGEX`: `^\s*[ivxlcdmIVXLCDM]+\.\s+`. -/
def romanAlt (content : List Char) : Option (List Char) :=
  let t := content.dropWhile isWS
  if (t.takeWhile isRomanChar).isEmpty then none
  else
    match t.dropWhile isRomanChar with
    | '.' :: rest => chompWS1 rest
    | _ => none

/-- The alternation `(\s*[-*+]\s+|\s*\d+\.\s+|\s*[a-zA-Z][.)]\s+|\s*[ivxlcdmIVXLCDM]+\.\s+)`
of `PREFIX_REGEX`, tried in the regex's left-to-right order: bullet, then
numeric, then alphabetical, then roman. Returns the residual after the
alternative's greedy `\s+`. -/
def prefixAlternatives (content : List Char) : Option (List Char) :=
  match bulletAlt content with
  | some r => some r
  | none =>
    match numberAlt content with
    | some r => some r
    | none =>
      match letterAlt content with
      | some r => some r
      | none => romanAlt content

/-- `content.match(PREFIX_REGEX)`, reduced to its observable part: `some r`
where `r` is capture group 2 (the residual after the recognized marker)
when the regex matches, `none` otherwise.

The regex ends in `(.*)$`: a dot cannot match a LineTerminator and the
un-multiline `$` anchors at the end of the string, so after an alternative
consumes the marker the whole regex succeeds exactly when the residual
holds no LineTerminator. Backtracking cannot rescue a blocked match: the
residual's first character is never whitespace (the greedy `\s+` is
maximal), giving `\s+` fewer characters only lengthens the residual, and
the marker classes are pairwise disjoint on their first character except
for the single-roman-letter overlap of the alphabetical and roman
alternatives, where both consume the same text and leave the same
residual. Hence: match iff the first structurally matching alternative's
residual is LineTerminator-free. -/
def PREFIX_REGEX_match (content : List Char) : Option (List Char) :=
  match prefixAlternatives content with
  | some r => if r.any isLineTerm then none else some r
  | none => none

/-- `processLine(line, newPrefix)` from `src/list-formatter.ts`. -/
def processLine (line : List Char) (newMarker : List Char) : List Char :=
  if isBlank line then line
  else
    let indentation := line.takeWhile isWS
    let content := line.dropWhile isWS
    match PREFIX_REGEX_match content with
    | some residual => indentation ++ newMarker ++ residual
    | none => indentation ++ newMarker ++ content

/-- The per-line map of `formatBulletList`. -/
def formatBulletLines (ls : List (List Char)) : List (List Char) :=
  ls.map fun line => if isBlank line then line else processLine line "- ".toList

/-- `formatBulletList(text)`. -/
def formatBulletList (text : List Char) : List Char :=
  joinLines (formatBulletLines (splitLines text))

/-- Decimal digit characters of `n`, as JS template-literal number
formatting (`${counter}`) produces them; fuel-based structural recursion. -/
def natReprAux : Nat → Nat → List Char
  | 0, _ => []
  | fuel + 1, n =>
    if n = 0 then [] else natReprAux fuel (n / 10) ++ [Char.ofNat (48 + n % 10)]

/-- The decimal representation of `n` (`${n}` in JS). -/
def natRepr (n : Nat) : List Char :=
  if n = 0 then ['0'] else natReprAux (n + 1) n

/-- The per-line loop of `formatNumberedList`, carrying the counter. -/
def formatNumberedLines : Nat → List (List Char) → List (List Char)
  | _, [] => []
  | counter, line :: rest =>
    if isBlank line then line :: formatNumberedLines counter rest
    else
      processLine line (natRepr counter ++ ". ".toList) ::
        formatNumberedLines (counter + 1) rest

/-- `formatNumberedList(text)`: the counter starts at 1. -/
def formatNumberedList (text : List Char) : List Char :=
  joinLines (formatNumberedLines 1 (splitLines text))

/-- The `charCode++` and the two wrap-around `if`s of
`formatAlphabeticalList`. -/
def nextCharCode (lower : Bool) (code : Nat) : Nat :=
  let c := code + 1
  if lower then (if 122 < c then 97 else c) else (if 90 < c then 65 else c)

/-- The per-line loop of `formatAlphabeticalList`, carrying `charCode`. -/
def formatAlphaLines (lower : Bool) : Nat → List (List Char) → List (List Char)
  | _, [] => []
  | code, line :: rest =>
    if isBlank line then line :: formatAlphaLines lower code rest
    else
      processLine line (Char.ofNat code :: ". ".toList) ::
        formatAlphaLines lower (nextCharCode lower code) rest

/-- `formatAlphabeticalList(text, lower = true)`: `charCode` starts at
`'a'.charCodeAt(0) = 97` or `'A'.charCodeAt(0) = 65`. -/
def formatAlphabeticalList (text : List Char) (lower : Bool := true) :
    List Char :=
  joinLines (formatAlphaLines lower (if lower then 97 else 65)
    (splitLines text))

/-- `ROMAN_NUMERALS_UPPER` from `src/list-formatter.ts`. -/
def ROMAN_NUMERALS_UPPER : List (List Char) :=
  ["I", "II", "III", "IV", "V", "VI", "VII", "VIII", "IX", "X", "XI", "XII",
    "XIII", "XIV", "XV", "XVI", "XVII", "XVIII", "XIX", "XX"].map
    String.toList

/-- `ROMAN_NUMERALS_LOWER = ROMAN_NUMERALS_UPPER.map(n => n.toLowerCase())`. -/
def ROMAN_NUMERALS_LOWER : List (List Char) :=
  ROMAN_NUMERALS_UPPER.map (List.map Char.toLower)

/-- The per-line loop of `formatRomanList`, carrying the counter. -/
def formatRomanLines (lower : Bool) : Nat → List (List Char) → List (List Char)
  | _, [] => []
  | counter, line :: rest =>
    if isBlank line then line :: formatRomanLines lower counter rest
    else
      let numerals :=
        if lower then ROMAN_NUMERALS_LOWER else ROMAN_NUMERALS_UPPER
      processLine line
          (numerals.getD (counter % numerals.length) [] ++ ". ".toList) ::
        formatRomanLines lower (counter + 1) rest

/-- `formatRomanList(text, lower = true)`: the counter starts at 0. -/
def formatRomanList (text : List Char) (lower : Bool := true) : List Char :=
  joinLines (formatRomanLines lower 0 (splitLines text))

/-- The per-line map of `formatCheckboxList`. -/
def formatCheckboxLines (ls : List (List Char)) : List (List Char) :=
  ls.map fun line => if isBlank line then line else processLine line "- [ ] ".toList

/-- `formatCheckboxList(text)`. -/
def formatCheckboxList (text : List Char) : List Char :=
  joinLines (formatCheckboxLines (splitLines text))

/-- The number of non-blank lines in a line list (drives every stateful
marker generator). -/
def countNB (ls : List (List Char)) : Nat := ls.countP fun l => !isBlank l

theorem splitLines_ne_nil (t : List Char) : splitLines t ≠ [] := by
  cases t with
  | nil => simp [splitLines]
  | cons c cs =>
    simp only [splitLines]
    split <;> simp

theorem splitLines_of_no_newline {l : List Char} (h : '\n' ∉ l) :
    splitLines l = [l] := by
  induction l with
  | nil => rfl
  | cons c cs ih =>
    simp only [List.mem_cons, not_or] at h
    simp [splitLines, Ne.symm h.1, ih h.2]

theorem splitLines_append_newline {l : List Char} (t : List Char)
    (h : '\n' ∉ l) : splitLines (l ++ '\n' :: t) = l :: splitLines t := by
  induction l with
  | nil => simp [splitLines]
  | cons c cs ih =>
    simp only [List.mem_cons, not_or] at h
    simp [splitLines, Ne.symm h.1, ih h.2]

theorem splitLines_joinLines {ls : List (List Char)} (hne : ls ≠ [])
    (h : ∀ l ∈ ls, '\n' ∉ l) : splitLines (joinLines ls) = ls := by
  induction ls with
  | nil => exact absurd rfl hne
  | cons l ls ih =>
    cases ls with
    | nil => exact splitLines_of_no_newline (h l (List.mem_cons_self l []))
    | cons l' ls' =>
      have h1 : '\n' ∉ l := h l (List.mem_cons_self l _)
      have h2 : ∀ x ∈ l' :: ls', '\n' ∉ x := fun x hx =>
        h x (List.mem_cons_of_mem l hx)
      simp only [joinLines]
      rw [splitLines_append_newline _ h1, ih (by simp) h2]

theorem mem_of_mem_splitLines {t l : List Char} (hl : l ∈ splitLines t)
    {x : Char} (hx : x ∈ l) : x ∈ t := by
  induction t generalizing l with
  | nil =>
    simp [splitLines] at hl
    subst hl
    simp at hx
  | cons c cs ih =>
    simp only [splitLines] at hl
    cases hsp : splitLines cs with
    | nil => exact absurd hsp (splitLines_ne_nil cs)
    | cons a as =>
      rw [hsp] at hl
      have ha : a ∈ splitLines cs := hsp ▸ List.mem_cons_self a as
      split at hl
      · rcases List.mem_cons.mp hl with h | h
        · subst h; simp at hx
        · exact List.mem_cons_of_mem c (ih (hsp ▸ h) hx)
      · simp only [List.headD_cons, List.tail_cons] at hl
        rcases List.mem_cons.mp hl with h | h
        · subst h
          rcases List.mem_cons.mp hx with h' | h'
          · exact h' ▸ List.mem_cons_self c cs
          · exact List.mem_cons_of_mem c (ih ha h')
        · exact List.mem_cons_of_mem c
            (ih (hsp ▸ List.mem_cons_of_mem a h) hx)

theorem newline_not_mem_splitLines {t l : List Char}
    (hl : l ∈ splitLines t) : '\n' ∉ l := by
  induction t generalizing l with
  | nil =>
    simp [splitLines] at hl
    subst hl
    simp
  | cons c cs ih =>
    simp only [splitLines] at hl
    cases hsp : splitLines cs with
    | nil => exact absurd hsp (splitLines_ne_nil cs)
    | cons a as =>
      rw [hsp] at hl
      have ha : a ∈ splitLines cs := hsp ▸ List.mem_cons_self a as
      split at hl
      · rcases List.mem_cons.mp hl with h | h
        · subst h; simp
        · exact ih (hsp ▸ h)
      · simp only [List.headD_cons, List.tail_cons] at hl
        rcases List.mem_cons.mp hl with h | h
        · subst h
          rename_i hc
          intro hmem
          rcases List.mem_cons.mp hmem with h' | h'
          · exact hc h'.symm
          · exact ih ha h'
        · exact ih (hsp ▸ List.mem_cons_of_mem a h)

theorem chompWS1_some {l r : List Char} (h : chompWS1 l = some r) :
    r = l.dropWhile isWS := by
  cases l with
  | nil => simp [chompWS1] at h
  | cons c cs =>
    simp only [chompWS1] at h
    split at h
    · rename_i hc
      simp only [Option.some.injEq] at h
      rw [List.dropWhile_cons, if_pos hc]
      exact h.symm
    · exact absurd h (by simp)

theorem bulletAlt_some {content r : List Char} (h : bulletAlt content = some r) :
    (∀ x ∈ r, x ∈ content) ∧ List.dropWhile isWS r = r := by
  unfold bulletAlt at h
  split at h
  · exact absurd h (by simp)
  · rename_i d rest hd
    split at h
    · have hr := chompWS1_some h
      subst hr
      refine ⟨fun x hx => ?_, List.dropWhile_idempotent _ _⟩
      have hx1 : x ∈ rest := (List.dropWhile_sublist isWS).subset hx
      have hx2 : x ∈ content.dropWhile isWS := hd ▸ List.mem_cons_of_mem d hx1
      exact (List.dropWhile_sublist isWS).subset hx2
    · exact absurd h (by simp)

theorem numberAlt_some {content r : List Char} (h : numberAlt content = some r) :
    (∀ x ∈ r, x ∈ content) ∧ List.dropWhile isWS r = r := by
  unfold numberAlt at h
  simp only at h
  split at h
  · exact absurd h (by simp)
  · split at h
    · rename_i rest heq
      have hr := chompWS1_some h
      subst hr
      refine ⟨fun x hx => ?_, List.dropWhile_idempotent _ _⟩
      have hx1 : x ∈ rest := (List.dropWhile_sublist isWS).subset hx
      have hx2 : x ∈ ('.' :: rest) := List.mem_cons_of_mem _ hx1
      rw [← heq] at hx2
      have hx3 := (List.dropWhile_sublist isDigitChar).subset hx2
      exact (List.dropWhile_sublist isWS).subset hx3
    · exact absurd h (by simp)

theorem letterAlt_some {content r : List Char} (h : letterAlt content = some r) :
    (∀ x ∈ r, x ∈ content) ∧ List.dropWhile isWS r = r := by
  unfold letterAlt at h
  split at h
  · rename_i c d rest heq
    split at h
    · have hr := chompWS1_some h
      subst hr
      refine ⟨fun x hx => ?_, List.dropWhile_idempotent _ _⟩
      have hx1 : x ∈ rest := (List.dropWhile_sublist isWS).subset hx
      have hx2 : x ∈ (c :: d :: rest) :=
        List.mem_cons_of_mem _ (List.mem_cons_of_mem _ hx1)
      rw [← heq] at hx2
      exact (List.dropWhile_sublist isWS).subset hx2
    · exact absurd h (by simp)
  · exact absurd h (by simp)

theorem romanAlt_some {content r : List Char} (h : romanAlt content = some r) :
    (∀ x ∈ r, x ∈ content) ∧ List.dropWhile isWS r = r := by
  unfold romanAlt at h
  simp only at h
  split at h
  · exact absurd h (by simp)
  · split at h
    · rename_i rest heq
      have hr := chompWS1_some h
      subst hr
      refine ⟨fun x hx => ?_, List.dropWhile_idempotent _ _⟩
      have hx1 : x ∈ rest := (List.dropWhile_sublist isWS).subset hx
      have hx2 : x ∈ ('.' :: rest) := List.mem_cons_of_mem _ hx1
      rw [← heq] at hx2
      have hx3 := (List.dropWhile_sublist isRomanChar).subset hx2
      exact (List.dropWhile_sublist isWS).subset hx3
    · exact absurd h (by simp)

theorem prefixAlternatives_some {content r : List Char}
    (h : prefixAlternatives content = some r) :
    (∀ x ∈ r, x ∈ content) ∧ List.dropWhile isWS r = r := by
  unfold prefixAlternatives at h
  split at h
  · rename_i heq
    exact Option.some.inj h ▸ bulletAlt_some heq
  · split at h
    · rename_i heq
      exact Option.some.inj h ▸ numberAlt_some heq
    · split at h
      · rename_i heq
        exact Option.some.inj h ▸ letterAlt_some heq
      · exact romanAlt_some h

theorem PREFIX_REGEX_match_some {content r : List Char}
    (h : PREFIX_REGEX_match content = some r) :
    (∀ x ∈ r, x ∈ content) ∧ List.dropWhile isWS r = r ∧
      r.any isLineTerm = false := by
  unfold PREFIX_REGEX_match at h
  split at h
  · rename_i heq
    split at h
    · exact absurd h (by simp)
    · rename_i hterm
      obtain ⟨h1, h2⟩ := prefixAlternatives_some heq
      cases h
      exact ⟨h1, h2, by simpa using hterm⟩
  · exact absurd h (by simp)

theorem processLine_not_blank (marker : List Char) {line : List Char}
    (h : isBlank line = false) :
    ∃ r, processLine line marker = line.takeWhile isWS ++ marker ++ r ∧
      List.dropWhile isWS r = r ∧ (∀ x ∈ r, x ∈ line) := by
  unfold processLine
  simp only [h, Bool.false_eq_true, if_false]
  split
  · rename_i r heq
    refine ⟨r, by simp, (PREFIX_REGEX_match_some heq).2.1, fun x hx => ?_⟩
    exact (List.dropWhile_sublist isWS).subset
      ((PREFIX_REGEX_match_some heq).1 x hx)
  · refine ⟨line.dropWhile isWS, by simp, List.dropWhile_idempotent _ _,
      fun x hx => ?_⟩
    exact (List.dropWhile_sublist isWS).subset hx

theorem processLine_mem {line marker : List Char} {x : Char}
    (hx : x ∈ processLine line marker) : x ∈ line ∨ x ∈ marker := by
  cases hb : isBlank line with
  | true =>
    unfold processLine at hx
    rw [hb] at hx
    simp only [if_true] at hx
    exact Or.inl hx
  | false =>
    obtain ⟨r, heq, -, hsub⟩ := processLine_not_blank marker hb
    rw [heq] at hx
    rcases List.mem_append.mp hx with h | h
    · rcases List.mem_append.mp h with h' | h'
      · exact Or.inl ((List.takeWhile_sublist isWS).subset h')
      · exact Or.inr h'
    · exact Or.inl (hsub x h)

theorem takeWhile_ws_append {W : List Char} {c : Char} {t : List Char}
    (hW : ∀ x ∈ W, isWS x = true) (hc : isWS c = false) :
    (W ++ c :: t).takeWhile isWS = W ∧ (W ++ c :: t).dropWhile isWS = c :: t := by
  induction W with
  | nil => simp [List.takeWhile_cons, List.dropWhile_cons, hc]
  | cons w ws ih =>
    have hw : isWS w = true := hW w (List.mem_cons_self w ws)
    have ih' := ih fun x hx => hW x (List.mem_cons_of_mem w hx)
    simp [List.takeWhile_cons, List.dropWhile_cons, hw, ih'.1, ih'.2]

theorem length_formatBulletLines (ls : List (List Char)) :
    (formatBulletLines ls).length = ls.length := by
  simp [formatBulletLines]

theorem length_formatNumberedLines (c : Nat) (ls : List (List Char)) :
    (formatNumberedLines c ls).length = ls.length := by
  induction ls generalizing c with
  | nil => rfl
  | cons l rest ih =>
    simp only [formatNumberedLines]
    split <;> simp [ih]

theorem length_formatAlphaLines (lower : Bool) (c : Nat)
    (ls : List (List Char)) : (formatAlphaLines lower c ls).length = ls.length := by
  induction ls generalizing c with
  | nil => rfl
  | cons l rest ih =>
    simp only [formatAlphaLines]
    split <;> simp [ih]

theorem length_formatRomanLines (lower : Bool) (c : Nat)
    (ls : List (List Char)) : (formatRomanLines lower c ls).length = ls.length := by
  induction ls generalizing c with
  | nil => rfl
  | cons l rest ih =>
    simp only [formatRomanLines]
    split <;> simp [ih]

theorem length_formatCheckboxLines (ls : List (List Char)) :
    (formatCheckboxLines ls).length = ls.length := by
  simp [formatCheckboxLines]

theorem no_newline_processLine {line marker : List Char} (h1 : '\n' ∉ line)
    (h2 : '\n' ∉ marker) : '\n' ∉ processLine line marker := fun h =>
  (processLine_mem h).elim h1 h2

theorem no_newline_natReprAux (fuel n : Nat) : '\n' ∉ natReprAux fuel n := by
  induction fuel generalizing n with
  | zero => simp [natReprAux]
  | succ fuel ih =>
    simp only [natReprAux]
    split
    · simp
    · intro hmem
      rcases List.mem_append.mp hmem with h | h
      · exact ih _ h
      · have hlt : n % 10 < 10 := Nat.mod_lt _ (by omega)
        have hten : ∀ m, m < 10 → Char.ofNat (48 + m) ≠ '\n' := by decide
        simp only [List.mem_singleton] at h
        exact hten _ hlt h.symm

theorem no_newline_natRepr (n : Nat) : '\n' ∉ natRepr n := by
  unfold natRepr
  split
  · decide
  · exact no_newline_natReprAux _ _

theorem no_newline_formatBulletLines {ls : List (List Char)}
    (hls : ∀ l ∈ ls, '\n' ∉ l) :
    ∀ l' ∈ formatBulletLines ls, '\n' ∉ l' := by
  intro l' hl'
  obtain ⟨l, hl, hmap⟩ := List.mem_map.mp hl'
  subst hmap
  split
  · exact hls l hl
  · exact no_newline_processLine (hls l hl) (by decide)

theorem no_newline_formatCheckboxLines {ls : List (List Char)}
    (hls : ∀ l ∈ ls, '\n' ∉ l) :
    ∀ l' ∈ formatCheckboxLines ls, '\n' ∉ l' := by
  intro l' hl'
  obtain ⟨l, hl, hmap⟩ := List.mem_map.mp hl'
  subst hmap
  split
  · exact hls l hl
  · exact no_newline_processLine (hls l hl) (by decide)

theorem no_newline_formatNumberedLines {ls : List (List Char)} (c : Nat)
    (hls : ∀ l ∈ ls, '\n' ∉ l) :
    ∀ l' ∈ formatNumberedLines c ls, '\n' ∉ l' := by
  induction ls generalizing c with
  | nil => simp [formatNumberedLines]
  | cons l rest ih =>
    intro l' hl'
    have hl : '\n' ∉ l := hls l (List.mem_cons_self l rest)
    have hrest : ∀ x ∈ rest, '\n' ∉ x := fun x hx =>
      hls x (List.mem_cons_of_mem l hx)
    simp only [formatNumberedLines] at hl'
    split at hl'
    · rcases List.mem_cons.mp hl' with h | h
      · exact h ▸ hl
      · exact ih c hrest l' h
    · rcases List.mem_cons.mp hl' with h | h
      · subst h
        refine no_newline_processLine hl fun hm => ?_
        rcases List.mem_append.mp hm with hm' | hm'
        · exact no_newline_natRepr c hm'
        · simp at hm'
      · exact ih (c + 1) hrest l' h

theorem nextCharCode_range {lower : Bool} {code : Nat} (h1 : 65 ≤ code)
    (h2 : code ≤ 122) :
    65 ≤ nextCharCode lower code ∧ nextCharCode lower code ≤ 122 := by
  simp only [nextCharCode]
  split <;> split <;> omega

theorem no_newline_formatAlphaLines {ls : List (List Char)} (lower : Bool)
    (c : Nat) (hc1 : 65 ≤ c) (hc2 : c ≤ 122) (hls : ∀ l ∈ ls, '\n' ∉ l) :
    ∀ l' ∈ formatAlphaLines lower c ls, '\n' ∉ l' := by
  induction ls generalizing c with
  | nil => simp [formatAlphaLines]
  | cons l rest ih =>
    intro l' hl'
    have hl : '\n' ∉ l := hls l (List.mem_cons_self l rest)
    have hrest : ∀ x ∈ rest, '\n' ∉ x := fun x hx =>
      hls x (List.mem_cons_of_mem l hx)
    simp only [formatAlphaLines] at hl'
    split at hl'
    · rcases List.mem_cons.mp hl' with h | h
      · exact h ▸ hl
      · exact ih c hc1 hc2 hrest l' h
    · rcases List.mem_cons.mp hl' with h | h
      · subst h
        refine no_newline_processLine hl fun hm => ?_
        rcases List.mem_cons.mp hm with hm' | hm'
        · have hall : ∀ m, m < 123 → 65 ≤ m → Char.ofNat m ≠ '\n' := by decide
          exact hall c (by omega) hc1 hm'.symm
        · simp at hm'
      · exact ih (nextCharCode lower c) (nextCharCode_range hc1 hc2).1
          (nextCharCode_range hc1 hc2).2 hrest l' h

theorem no_newline_romanMarker (lower : Bool) (k : Nat) :
    '\n' ∉ (if lower then ROMAN_NUMERALS_LOWER else ROMAN_NUMERALS_UPPER).getD
      (k % (if lower then ROMAN_NUMERALS_LOWER else ROMAN_NUMERALS_UPPER).length)
      [] := by
  have h20 :
      (if lower then ROMAN_NUMERALS_LOWER else ROMAN_NUMERALS_UPPER).length =
        20 := by
    cases lower <;> decide
  rw [h20]
  have hlt : k % 20 < 20 := Nat.mod_lt _ (by omega)
  have hall : ∀ m, m < 20 → '\n' ∉ ROMAN_NUMERALS_LOWER.getD m [] ∧
      '\n' ∉ ROMAN_NUMERALS_UPPER.getD m [] := by decide
  cases lower with
  | true => simpa using (hall _ hlt).1
  | false => simpa using (hall _ hlt).2

theorem no_newline_formatRomanLines {ls : List (List Char)} (lower : Bool)
    (c : Nat) (hls : ∀ l ∈ ls, '\n' ∉ l) :
    ∀ l' ∈ formatRomanLines lower c ls, '\n' ∉ l' := by
  induction ls generalizing c with
  | nil => simp [formatRomanLines]
  | cons l rest ih =>
    intro l' hl'
    have hl : '\n' ∉ l := hls l (List.mem_cons_self l rest)
    have hrest : ∀ x ∈ rest, '\n' ∉ x := fun x hx =>
      hls x (List.mem_cons_of_mem l hx)
    simp only [formatRomanLines] at hl'
    split at hl'
    · rcases List.mem_cons.mp hl' with h | h
      · exact h ▸ hl
      · exact ih c hrest l' h
    · rcases List.mem_cons.mp hl' with h | h
      · subst h
        refine no_newline_processLine hl fun hm => ?_
        rcases List.mem_append.mp hm with hm' | hm'
        · exact no_newline_romanMarker lower c hm'
        · simp at hm'
      · exact ih (c + 1) hrest l' h

theorem splitLines_formatBulletList (text : List Char) :
    splitLines (formatBulletList text) = formatBulletLines (splitLines text) := by
  unfold formatBulletList
  refine splitLines_joinLines ?_ ?_
  · have := length_formatBulletLines (splitLines text)
    intro hnil
    rw [hnil] at this
    exact splitLines_ne_nil text (List.eq_nil_of_length_eq_zero this.symm)
  · exact no_newline_formatBulletLines fun l hl =>
      newline_not_mem_splitLines hl

theorem splitLines_formatCheckboxList (text : List Char) :
    splitLines (formatCheckboxList text) =
      formatCheckboxLines (splitLines text) := by
  unfold formatCheckboxList
  refine splitLines_joinLines ?_ ?_
  · have := length_formatCheckboxLines (splitLines text)
    intro hnil
    rw [hnil] at this
    exact splitLines_ne_nil text (List.eq_nil_of_length_eq_zero this.symm)
  · exact no_newline_formatCheckboxLines fun l hl =>
      newline_not_mem_splitLines hl

theorem splitLines_formatNumberedList (text : List Char) :
    splitLines (formatNumberedList text) =
      formatNumberedLines 1 (splitLines text) := by
  unfold formatNumberedList
  refine splitLines_joinLines ?_ ?_
  · have := length_formatNumberedLines 1 (splitLines text)
    intro hnil
    rw [hnil] at this
    exact splitLines_ne_nil text (List.eq_nil_of_length_eq_zero this.symm)
  · exact no_newline_formatNumberedLines 1 fun l hl =>
      newline_not_mem_splitLines hl

theorem splitLines_formatAlphabeticalList (text : List Char) (lower : Bool) :
    splitLines (formatAlphabeticalList text lower) =
      formatAlphaLines lower (if lower then 97 else 65) (splitLines text) := by
  unfold formatAlphabeticalList
  refine splitLines_joinLines ?_ ?_
  · have := length_formatAlphaLines lower (if lower then 97 else 65)
      (splitLines text)
    intro hnil
    rw [hnil] at this
    exact splitLines_ne_nil text (List.eq_nil_of_length_eq_zero this.symm)
  · exact no_newline_formatAlphaLines lower _ (by split <;> omega)
      (by split <;> omega) fun l hl => newline_not_mem_splitLines hl

theorem splitLines_formatRomanList (text : List Char) (lower : Bool) :
    splitLines (formatRomanList text lower) =
      formatRomanLines lower 0 (splitLines text) := by
  unfold formatRomanList
  refine splitLines_joinLines ?_ ?_
  · have := length_formatRomanLines lower 0 (splitLines text)
    intro hnil
    rw [hnil] at this
    exact splitLines_ne_nil text (List.eq_nil_of_length_eq_zero this.symm)
  · exact no_newline_formatRomanLines lower 0 fun l hl =>
      newline_not_mem_splitLines hl

theorem countNB_cons (l : List Char) (ls : List (List Char)) :
    countNB (l :: ls) = countNB ls + if isBlank l then 0 else 1 := by
  simp only [countNB, List.countP_cons]
  cases hb : isBlank l <;> simp

theorem getD_formatNumberedLines (c : Nat) (ls : List (List Char)) (i : Nat)
    (h : i < ls.length) :
    (formatNumberedLines c ls).getD i [] =
      if isBlank (ls.getD i []) then ls.getD i []
      else processLine (ls.getD i [])
        (natRepr (c + countNB (ls.take i)) ++ ". ".toList) := by
  induction ls generalizing c i with
  | nil => simp at h
  | cons l rest ih =>
    cases i with
    | zero =>
      simp only [formatNumberedLines, List.take_zero, countNB, List.countP_nil,
        Nat.add_zero, List.getD_cons_zero]
      split <;> simp [List.getD_cons_zero]
    | succ i =>
      have hlen : i < rest.length := by simpa using h
      simp only [formatNumberedLines, List.getD_cons_succ, List.take_succ_cons]
      cases hb : isBlank l with
      | true =>
        simp only [if_true]
        rw [List.getD_cons_succ, ih c i hlen, countNB_cons, hb]
        simp
      | false =>
        simp only [Bool.false_eq_true, if_false]
        rw [List.getD_cons_succ, ih (c + 1) i hlen, countNB_cons, hb]
        have harg : c + (countNB (rest.take i) + 1) =
            c + 1 + countNB (rest.take i) := by omega
        simp only [Bool.false_eq_true, if_false, harg]

theorem nextCharCode_mod (lower : Bool) (k : Nat) :
    nextCharCode lower ((if lower then 97 else 65) + k % 26) =
      (if lower then 97 else 65) + (k + 1) % 26 := by
  have h1 : k % 26 < 26 := Nat.mod_lt _ (by omega)
  cases lower <;> simp only [nextCharCode, if_true, Bool.false_eq_true,
    if_false] <;> split <;> omega

theorem getD_formatAlphaLines (lower : Bool) (k : Nat) (ls : List (List Char))
    (i : Nat) (h : i < ls.length) :
    (formatAlphaLines lower ((if lower then 97 else 65) + k % 26) ls).getD i
        [] =
      if isBlank (ls.getD i []) then ls.getD i []
      else processLine (ls.getD i [])
        (Char.ofNat
            ((if lower then 97 else 65) + (k + countNB (ls.take i)) % 26) ::
          ". ".toList) := by
  induction ls generalizing k i with
  | nil => simp at h
  | cons l rest ih =>
    cases i with
    | zero =>
      simp only [formatAlphaLines, List.take_zero, countNB, List.countP_nil,
        Nat.add_zero, List.getD_cons_zero]
      split <;> simp [List.getD_cons_zero]
    | succ i =>
      have hlen : i < rest.length := by simpa using h
      simp only [formatAlphaLines, List.getD_cons_succ, List.take_succ_cons]
      cases hb : isBlank l with
      | true =>
        simp only [if_true]
        rw [List.getD_cons_succ, ih k i hlen, countNB_cons, hb]
        simp
      | false =>
        simp only [Bool.false_eq_true, if_false]
        rw [List.getD_cons_succ, nextCharCode_mod, ih (k + 1) i hlen,
          countNB_cons, hb]
        have harg : (k + (countNB (rest.take i) + 1)) % 26 =
            (k + 1 + countNB (rest.take i)) % 26 := by omega
        simp only [Bool.false_eq_true, if_false, harg]

theorem length_roman_numerals (lower : Bool) :
    (if lower then ROMAN_NUMERALS_LOWER else ROMAN_NUMERALS_UPPER).length =
      20 := by
  cases lower <;> decide

theorem getD_formatRomanLines (lower : Bool) (c : Nat) (ls : List (List Char))
    (i : Nat) (h : i < ls.length) :
    (formatRomanLines lower c ls).getD i [] =
      if isBlank (ls.getD i []) then ls.getD i []
      else processLine (ls.getD i [])
        ((if lower then ROMAN_NUMERALS_LOWER else ROMAN_NUMERALS_UPPER).getD
            ((c + countNB (ls.take i)) % 20) [] ++ ". ".toList) := by
  induction ls generalizing c i with
  | nil => simp at h
  | cons l rest ih =>
    cases i with
    | zero =>
      simp only [formatRomanLines, List.take_zero, countNB, List.countP_nil,
        Nat.add_zero, List.getD_cons_zero, length_roman_numerals]
      split <;> simp [List.getD_cons_zero, length_roman_numerals]
    | succ i =>
      have hlen : i < rest.length := by simpa using h
      simp only [formatRomanLines, List.getD_cons_succ, List.take_succ_cons]
      cases hb : isBlank l with
      | true =>
        simp only [if_true]
        rw [List.getD_cons_succ, ih c i hlen, countNB_cons, hb]
        simp
      | false =>
        simp only [Bool.false_eq_true, if_false]
        rw [List.getD_cons_succ, ih (c + 1) i hlen, countNB_cons, hb]
        have harg : (c + (countNB (rest.take i) + 1)) % 20 =
            (c + 1 + countNB (rest.take i)) % 20 := by omega
        simp only [Bool.false_eq_true, if_false, harg]

theorem formatBulletLines_insert_blank (ls₁ ls₂ : List (List Char))
    {b : List Char} (hb : isBlank b = true) :
    formatBulletLines (ls₁ ++ b :: ls₂) =
      (formatBulletLines (ls₁ ++ ls₂)).take ls₁.length ++
        b :: (formatBulletLines (ls₁ ++ ls₂)).drop ls₁.length := by
  simp only [formatBulletLines, List.map_append, List.map_cons, hb, if_true]
  rw [List.take_left' (by simp), List.drop_left' (by simp)]

theorem formatCheckboxLines_insert_blank (ls₁ ls₂ : List (List Char))
    {b : List Char} (hb : isBlank b = true) :
    formatCheckboxLines (ls₁ ++ b :: ls₂) =
      (formatCheckboxLines (ls₁ ++ ls₂)).take ls₁.length ++
        b :: (formatCheckboxLines (ls₁ ++ ls₂)).drop ls₁.length := by
  simp only [formatCheckboxLines, List.map_append, List.map_cons, hb, if_true]
  rw [List.take_left' (by simp), List.drop_left' (by simp)]

theorem formatNumberedLines_insert_blank (c : Nat) (ls₁ ls₂ : List (List Char))
    {b : List Char} (hb : isBlank b = true) :
    formatNumberedLines c (ls₁ ++ b :: ls₂) =
      (formatNumberedLines c (ls₁ ++ ls₂)).take ls₁.length ++
        b :: (formatNumberedLines c (ls₁ ++ ls₂)).drop ls₁.length := by
  induction ls₁ generalizing c with
  | nil => simp [formatNumberedLines, hb]
  | cons l ls₁ ih =>
    simp only [List.cons_append, formatNumberedLines]
    split <;> simp [ih]

theorem formatAlphaLines_insert_blank (lower : Bool) (c : Nat)
    (ls₁ ls₂ : List (List Char)) {b : List Char} (hb : isBlank b = true) :
    formatAlphaLines lower c (ls₁ ++ b :: ls₂) =
      (formatAlphaLines lower c (ls₁ ++ ls₂)).take ls₁.length ++
        b :: (formatAlphaLines lower c (ls₁ ++ ls₂)).drop ls₁.length := by
  induction ls₁ generalizing c with
  | nil => simp [formatAlphaLines, hb]
  | cons l ls₁ ih =>
    simp only [List.cons_append, formatAlphaLines]
    split <;> simp [ih]

theorem formatRomanLines_insert_blank (lower : Bool) (c : Nat)
    (ls₁ ls₂ : List (List Char)) {b : List Char} (hb : isBlank b = true) :
    formatRomanLines lower c (ls₁ ++ b :: ls₂) =
      (formatRomanLines lower c (ls₁ ++ ls₂)).take ls₁.length ++
        b :: (formatRomanLines lower c (ls₁ ++ ls₂)).drop ls₁.length := by
  induction ls₁ generalizing c with
  | nil => simp [formatRomanLines, hb]
  | cons l ls₁ ih =>
    simp only [List.cons_append, formatRomanLines]
    split <;> simp [ih]

theorem getD_formatBulletLines (ls : List (List Char)) (i : Nat)
    (h : i < ls.length) :
    (formatBulletLines ls).getD i [] =
      if isBlank (ls.getD i []) then ls.getD i []
      else processLine (ls.getD i []) "- ".toList := by
  induction ls generalizing i with
  | nil => simp at h
  | cons l rest ih =>
    cases i with
    | zero => simp [formatBulletLines, List.getD_cons_zero]
    | succ i =>
      have hlen : i < rest.length := by simpa using h
      simpa [formatBulletLines, List.getD_cons_succ] using ih i hlen

theorem getD_formatCheckboxLines (ls : List (List Char)) (i : Nat)
    (h : i < ls.length) :
    (formatCheckboxLines ls).getD i [] =
      if isBlank (ls.getD i []) then ls.getD i []
      else processLine (ls.getD i []) "- [ ] ".toList := by
  induction ls generalizing i with
  | nil => simp at h
  | cons l rest ih =>
    cases i with
    | zero => simp [formatCheckboxLines, List.getD_cons_zero]
    | succ i =>
      have hlen : i < rest.length := by simpa using h
      simpa [formatCheckboxLines, List.getD_cons_succ] using ih i hlen

theorem isBlank_ws_append_cons {W : List Char} {c : Char} {s : List Char}
    (hcw : isWS c = false) : isBlank (W ++ c :: s) = false := by
  simp [isBlank, hcw]

theorem processLine_bullet_again {W t : List Char} {c : Char}
    (hW : ∀ x ∈ W, isWS x = true) (hc : isBulletChar c = true)
    (hcw : isWS c = false) (ht : List.dropWhile isWS t = t)
    (htf : t.any isLineTerm = false) (marker : List Char) :
    processLine (W ++ c :: ' ' :: t) marker = W ++ marker ++ t := by
  have hsp : isWS ' ' = true := by decide
  have htw := takeWhile_ws_append (t := ' ' :: t) hW hcw
  have hbA : bulletAlt (c :: ' ' :: t) = some t := by
    unfold bulletAlt
    rw [List.dropWhile_cons, if_neg (by simp [hcw])]
    simp [hc, chompWS1, hsp, ht]
  have hmatch : PREFIX_REGEX_match (c :: ' ' :: t) = some t := by
    unfold PREFIX_REGEX_match prefixAlternatives
    rw [hbA]
    simp [htf]
  have hblank : isBlank (W ++ c :: ' ' :: t) = false :=
    isBlank_ws_append_cons hcw
  simp only [processLine, hblank, Bool.false_eq_true, if_false, htw.1, htw.2,
    hmatch]

theorem formatBulletLines_idem {ls : List (List Char)}
    (hterm : ∀ l ∈ ls, ∀ x ∈ l, isLineTerm x = false) :
    formatBulletLines (formatBulletLines ls) = formatBulletLines ls := by
  simp only [formatBulletLines, List.map_map]
  apply List.map_congr_left
  intro l hl
  simp only [Function.comp_apply]
  cases hb : isBlank l with
  | true => simp [hb]
  | false =>
    simp only [Bool.false_eq_true, if_false]
    obtain ⟨r, heq, hr, hsub⟩ :=
      processLine_not_blank "- ".toList hb
    have htf : r.any isLineTerm = false := by
      rw [List.any_eq_false]
      intro x hx
      simp [hterm l hl x (hsub x hx)]
    have heq' : processLine l "- ".toList =
        l.takeWhile isWS ++ '-' :: ' ' :: r := by
      simpa using heq
    rw [heq']
    have hW : ∀ x ∈ l.takeWhile isWS, isWS x = true := fun x hx =>
      List.mem_takeWhile_imp hx
    have hblank :
        isBlank (l.takeWhile isWS ++ '-' :: ' ' :: r) = false :=
      isBlank_ws_append_cons (by decide)
    rw [hblank]
    simp only [Bool.false_eq_true, if_false]
    rw [processLine_bullet_again hW (by decide) (by decide) hr htf]
    simp

theorem formatBulletLines_checkbox {ls : List (List Char)}
    (hterm : ∀ l ∈ ls, ∀ x ∈ l, isLineTerm x = false) :
    formatBulletLines (formatCheckboxLines ls) = formatCheckboxLines ls := by
  simp only [formatBulletLines, formatCheckboxLines, List.map_map]
  conv_rhs => rw [← List.map_id (ls.map fun line =>
    if isBlank line then line else processLine line "- [ ] ".toList)]
  rw [List.map_map]
  apply List.map_congr_left
  intro l hl
  simp only [Function.comp_apply, id_eq]
  cases hb : isBlank l with
  | true => simp [hb]
  | false =>
    simp only [Bool.false_eq_true, if_false]
    obtain ⟨r, heq, hr, hsub⟩ :=
      processLine_not_blank "- [ ] ".toList hb
    have htfr : r.any isLineTerm = false := by
      rw [List.any_eq_false]
      intro x hx
      simp [hterm l hl x (hsub x hx)]
    have htf : ('[' :: ' ' :: ']' :: ' ' :: r).any isLineTerm = false := by
      simp only [List.any_cons, htfr, Bool.or_false]
      decide
    have heq' : processLine l "- [ ] ".toList =
        l.takeWhile isWS ++ '-' :: ' ' :: ('[' :: ' ' :: ']' :: ' ' :: r) := by
      simpa using heq
    rw [heq']
    have hW : ∀ x ∈ l.takeWhile isWS, isWS x = true := fun x hx =>
      List.mem_takeWhile_imp hx
    have ht : List.dropWhile isWS ('[' :: ' ' :: ']' :: ' ' :: r) =
        '[' :: ' ' :: ']' :: ' ' :: r := by
      rw [List.dropWhile_cons, if_neg (by decide)]
    have hblank : isBlank
        (l.takeWhile isWS ++ '-' :: ' ' :: ('[' :: ' ' :: ']' :: ' ' :: r)) =
        false := isBlank_ws_append_cons (by decide)
    rw [hblank]
    simp only [Bool.false_eq_true, if_false]
    rw [processLine_bullet_again hW (by decide) (by decide) ht htf]
    simp

theorem no_lineTerm_in_splitLines {text : List Char}
    (htext : ∀ c ∈ text, isLineTerm c = true → c = '\n') :
    ∀ l ∈ splitLines text, ∀ x ∈ l, isLineTerm x = false := by
  intro l hl x hx
  cases hlt : isLineTerm x with
  | false => rfl
  | true =>
    exfalso
    have hnl := htext x (mem_of_mem_splitLines hl hx) hlt
    exact newline_not_mem_splitLines hl (hnl ▸ hx)

theorem getD_formatAlphaLines_init (lower : Bool) (ls : List (List Char))
    (i : Nat) (h : i < ls.length) :
    (formatAlphaLines lower (if lower then 97 else 65) ls).getD i [] =
      if isBlank (ls.getD i []) then ls.getD i []
      else processLine (ls.getD i [])
        (Char.ofNat ((if lower then 97 else 65) + countNB (ls.take i) % 26) ::
          ". ".toList) := by
  have h26 : (if lower then 97 else 65) =
      (if lower then 97 else 65) + 0 % 26 := by simp
  rw [h26, getD_formatAlphaLines lower 0 ls i h]
  simp

/-- C1 (amended): on every non-blank line on which the detector fires —
its content (after the leading indentation) starts with a recognized
marker form AND the residual after the marker holds no LineTerminator
(otherwise the regex's `(.*)$` tail blocks the match, see the
counterexample) — `processLine` discards the old marker entirely and
substitutes exactly one new marker in front of the residual content;
concretely, `"* old item"` under `formatCheckboxList` yields
`"- [ ] old item"`, `"1. First\n- Second\niii. Third"` under
`formatAlphabeticalList(·, true)` yields `"a. First\nb. Second\nc. Third"`,
and the single-letter roman-lookalike marker of `"i. Third"` is stripped,
consumed by the alphabetical alternative under the precedence
bullet → numeric → alphabetical → roman. -/
theorem c1_marker_replaced :
    (∀ (line marker r : List Char), isBlank line = false →
        PREFIX_REGEX_match (line.dropWhile isWS) = some r →
        processLine line marker = line.takeWhile isWS ++ marker ++ r) ∧
    formatCheckboxList "* old item".toList = "- [ ] old item".toList ∧
    formatAlphabeticalList "1. First\n- Second\niii. Third".toList true =
      "a. First\nb. Second\nc. Third".toList ∧
    letterAlt "i. Third".toList = some "Third".toList ∧
    PREFIX_REGEX_match "i. Third".toList = some "Third".toList := by
  refine ⟨?_, by decide, by decide, by decide, by decide⟩
  intro line marker r hb hm
  simp only [processLine, hb, Bool.false_eq_true, if_false, hm]

/-- Witness for C1 at the concrete line `"* old item"` with the checkbox
marker. -/
theorem c1_marker_replaced_witness :
    processLine "* old item".toList "- [ ] ".toList =
      "* old item".toList.takeWhile isWS ++ "- [ ] ".toList ++
        "old item".toList :=
  c1_marker_replaced.1 "* old item".toList "- [ ] ".toList "old item".toList
    (by decide) (by decide)

/-- Counterexample to C1 as stated: the line `"* a\rb"` begins with a
recognized bullet marker form, yet under `formatCheckboxList` the old
marker is not discarded — the carriage return in the residual keeps
`(.*)$` from matching, so the new marker is prepended in front of the old
one. -/
theorem c1_marker_replaced_counterexample :
    formatCheckboxList "* a\rb".toList ≠ "- [ ] a\rb".toList ∧
    formatCheckboxList "* a\rb".toList = "- [ ] * a\rb".toList := by
  constructor
  · decide
  · decide

/-- C2: `formatNumberedList` numbers the non-blank lines sequentially from
1, the counter advancing exactly on non-blank lines: the line at index `i`,
when non-blank, is the k-th non-blank line for `k = countNB (take i) + 1`
and receives the marker `"{k}. "`; concretely `"a\nb\n\nc"` becomes
`"1. a\n2. b\n\n3. c"`. -/
theorem c2_numbered_sequencing :
    formatNumberedList "a\nb\n\nc".toList = "1. a\n2. b\n\n3. c".toList ∧
    ∀ (text : List Char) (i : Nat), i < (splitLines text).length →
      isBlank ((splitLines text).getD i []) = false →
      (splitLines (formatNumberedList text)).getD i [] =
        processLine ((splitLines text).getD i [])
          (natRepr (countNB ((splitLines text).take i) + 1) ++ ". ".toList) := by
  refine ⟨by decide, ?_⟩
  intro text i h hnb
  rw [splitLines_formatNumberedList, getD_formatNumberedLines 1 _ i h, hnb]
  have harg : 1 + countNB ((splitLines text).take i) =
      countNB ((splitLines text).take i) + 1 := by omega
  simp [harg]

/-- Witness for C2 on the single-line text `"x"`. -/
theorem c2_numbered_sequencing_witness :
    (splitLines (formatNumberedList "x".toList)).getD 0 [] =
      processLine ((splitLines "x".toList).getD 0 [])
        (natRepr (countNB ((splitLines "x".toList).take 0) + 1) ++
          ". ".toList) :=
  c2_numbered_sequencing.2 "x".toList 0 (by decide) (by decide)

/-- C3: for every input and every one of the five style functions, a blank
(empty or whitespace-only) line is reproduced byte-identically, and it
never advances the style's counter state: deleting the blank line from the
line list leaves every other output line unchanged. -/
theorem c3_blank_lines_preserved :
    (∀ (text : List Char) (i : Nat), i < (splitLines text).length →
        isBlank ((splitLines text).getD i []) = true →
        (splitLines (formatBulletList text)).getD i [] =
            (splitLines text).getD i [] ∧
        (splitLines (formatCheckboxList text)).getD i [] =
            (splitLines text).getD i [] ∧
        (splitLines (formatNumberedList text)).getD i [] =
            (splitLines text).getD i [] ∧
        (splitLines (formatAlphabeticalList text true)).getD i [] =
            (splitLines text).getD i [] ∧
        (splitLines (formatAlphabeticalList text false)).getD i [] =
            (splitLines text).getD i [] ∧
        (splitLines (formatRomanList text true)).getD i [] =
            (splitLines text).getD i [] ∧
        (splitLines (formatRomanList text false)).getD i [] =
            (splitLines text).getD i []) ∧
    (∀ (ls₁ ls₂ : List (List Char)) (b : List Char) (c : Nat) (lower : Bool),
        isBlank b = true →
        formatBulletLines (ls₁ ++ b :: ls₂) =
          (formatBulletLines (ls₁ ++ ls₂)).take ls₁.length ++
            b :: (formatBulletLines (ls₁ ++ ls₂)).drop ls₁.length ∧
        formatCheckboxLines (ls₁ ++ b :: ls₂) =
          (formatCheckboxLines (ls₁ ++ ls₂)).take ls₁.length ++
            b :: (formatCheckboxLines (ls₁ ++ ls₂)).drop ls₁.length ∧
        formatNumberedLines c (ls₁ ++ b :: ls₂) =
          (formatNumberedLines c (ls₁ ++ ls₂)).take ls₁.length ++
            b :: (formatNumberedLines c (ls₁ ++ ls₂)).drop ls₁.length ∧
        formatAlphaLines lower c (ls₁ ++ b :: ls₂) =
          (formatAlphaLines lower c (ls₁ ++ ls₂)).take ls₁.length ++
            b :: (formatAlphaLines lower c (ls₁ ++ ls₂)).drop ls₁.length ∧
        formatRomanLines lower c (ls₁ ++ b :: ls₂) =
          (formatRomanLines lower c (ls₁ ++ ls₂)).take ls₁.length ++
            b :: (formatRomanLines lower c (ls₁ ++ ls₂)).drop ls₁.length) := by
  constructor
  · intro text i h hblank
    refine ⟨?_, ?_, ?_, ?_, ?_, ?_, ?_⟩
    · rw [splitLines_formatBulletList, getD_formatBulletLines _ i h, hblank]
      simp
    · rw [splitLines_formatCheckboxList, getD_formatCheckboxLines _ i h,
        hblank]
      simp
    · rw [splitLines_formatNumberedList, getD_formatNumberedLines 1 _ i h,
        hblank]
      simp
    · rw [splitLines_formatAlphabeticalList,
        getD_formatAlphaLines_init true _ i h, hblank]
      simp
    · rw [splitLines_formatAlphabeticalList,
        getD_formatAlphaLines_init false _ i h, hblank]
      simp
    · rw [splitLines_formatRomanList, getD_formatRomanLines true 0 _ i h,
        hblank]
      simp
    · rw [splitLines_formatRomanList, getD_formatRomanLines false 0 _ i h,
        hblank]
      simp
  · intro ls₁ ls₂ b c lower hb
    exact ⟨formatBulletLines_insert_blank ls₁ ls₂ hb,
      formatCheckboxLines_insert_blank ls₁ ls₂ hb,
      formatNumberedLines_insert_blank c ls₁ ls₂ hb,
      formatAlphaLines_insert_blank lower c ls₁ ls₂ hb,
      formatRomanLines_insert_blank lower c ls₁ ls₂ hb⟩

/-- Witness for C3: the whitespace-only middle line of `"a\n \nb"` is
returned byte-identically by `formatBulletList`. -/
theorem c3_blank_lines_preserved_witness :
    (splitLines (formatBulletList "a\n \nb".toList)).getD 1 [] =
      (splitLines "a\n \nb".toList).getD 1 [] :=
  (c3_blank_lines_preserved.1 "a\n \nb".toList 1 (by decide) (by decide)).1

/-- C4: on a non-blank line with maximal leading whitespace `W` and content
`C`, and any marker whose first character is not whitespace (every marker a
style function passes), the output is exactly `W ++ marker ++ residual`,
its maximal leading whitespace is exactly `W`, and when no prefix is
detected the residual is `C` verbatim. -/
theorem c4_indentation_preserved :
    ∀ (line marker cs : List Char) (c : Char), isBlank line = false →
      marker = c :: cs → isWS c = false →
      (∃ r, processLine line marker = line.takeWhile isWS ++ marker ++ r) ∧
      (processLine line marker).takeWhile isWS = line.takeWhile isWS ∧
      (PREFIX_REGEX_match (line.dropWhile isWS) = none →
        processLine line marker =
          line.takeWhile isWS ++ marker ++ line.dropWhile isWS) := by
  intro line marker cs c hb hm hcw
  obtain ⟨r, heq, hr, -⟩ := processLine_not_blank marker hb
  refine ⟨⟨r, heq⟩, ?_, ?_⟩
  · rw [heq, hm]
    have hW : ∀ x ∈ line.takeWhile isWS, isWS x = true := fun x hx =>
      List.mem_takeWhile_imp hx
    have htw := takeWhile_ws_append (t := cs ++ r) hW hcw
    simpa using htw.1
  · intro hnone
    simp only [processLine, hb, Bool.false_eq_true, if_false, hnone]

/-- Witness for C4 at the indented line `"  inner  text"` with the marker
`"1. "`. -/
theorem c4_indentation_preserved_witness :
    (processLine "  inner  text".toList "1. ".toList).takeWhile isWS =
      "  inner  text".toList.takeWhile isWS :=
  (c4_indentation_preserved "  inner  text".toList "1. ".toList ". ".toList
    '1' (by decide) (by decide) (by decide)).2.1

/-- C5: every style function maps the `\n`-split line list of its input to
the per-line processed line list in order (no line added, removed or
reordered), so the output line count equals the input line count. -/
theorem c5_line_count_preserved :
    ∀ (text : List Char) (lower : Bool),
      splitLines (formatBulletList text) =
          formatBulletLines (splitLines text) ∧
      splitLines (formatCheckboxList text) =
          formatCheckboxLines (splitLines text) ∧
      splitLines (formatNumberedList text) =
          formatNumberedLines 1 (splitLines text) ∧
      splitLines (formatAlphabeticalList text lower) =
          formatAlphaLines lower (if lower then 97 else 65)
            (splitLines text) ∧
      splitLines (formatRomanList text lower) =
          formatRomanLines lower 0 (splitLines text) ∧
      (splitLines (formatBulletList text)).length =
          (splitLines text).length ∧
      (splitLines (formatCheckboxList text)).length =
          (splitLines text).length ∧
      (splitLines (formatNumberedList text)).length =
          (splitLines text).length ∧
      (splitLines (formatAlphabeticalList text lower)).length =
          (splitLines text).length ∧
      (splitLines (formatRomanList text lower)).length =
          (splitLines text).length := by
  intro text lower
  refine ⟨splitLines_formatBulletList text, splitLines_formatCheckboxList text,
    splitLines_formatNumberedList text,
    splitLines_formatAlphabeticalList text lower,
    splitLines_formatRomanList text lower, ?_, ?_, ?_, ?_, ?_⟩
  · rw [splitLines_formatBulletList]
    exact length_formatBulletLines _
  · rw [splitLines_formatCheckboxList]
    exact length_formatCheckboxLines _
  · rw [splitLines_formatNumberedList]
    exact length_formatNumberedLines 1 _
  · rw [splitLines_formatAlphabeticalList]
    exact length_formatAlphaLines lower _ _
  · rw [splitLines_formatRomanList]
    exact length_formatRomanLines lower 0 _

/-- C6 (amended): `formatBulletList` is idempotent on every text whose only
LineTerminator character is the `'\n'` separator itself: the `"- "` marker
written by the first application is then detected as an existing bullet
prefix by the second and replaced, never duplicated. (On a line holding a
bare CR, LS or PS the regex's `(.*)$` tail blocks re-detection and the
marker is duplicated instead — see the counterexample.) -/
theorem c6_bullet_idempotent (text : List Char)
    (htext : ∀ c ∈ text, isLineTerm c = true → c = '\n') :
    formatBulletList (formatBulletList text) = formatBulletList text := by
  have h1 : formatBulletList (formatBulletList text) =
      joinLines (formatBulletLines (splitLines (formatBulletList text))) :=
    rfl
  rw [h1, splitLines_formatBulletList,
    formatBulletLines_idem (no_lineTerm_in_splitLines htext)]
  rfl

/-- Witness for C6 on the text `"- a\nb"`. -/
theorem c6_bullet_idempotent_witness :
    formatBulletList (formatBulletList "- a\nb".toList) =
      formatBulletList "- a\nb".toList :=
  c6_bullet_idempotent "- a\nb".toList (by decide)

/-- Counterexample to C6 as stated: on the line `"a\rb"` the first
application outputs `"- a\rb"`, whose carriage return keeps `(.*)$` from
matching, so the second application prepends another marker
(`"- - a\rb"`) instead of replacing the first. -/
theorem c6_bullet_idempotent_counterexample :
    formatBulletList (formatBulletList "a\rb".toList) ≠
      formatBulletList "a\rb".toList ∧
    formatBulletList (formatBulletList "a\rb".toList) =
      "- - a\rb".toList := by
  constructor
  · decide
  · decide

/-- C7: `formatRomanList` gives the k-th non-blank line (0-based) the
numeral at index `k mod 20` of the fixed 20-entry table, formatted
`"{numeral}. "`; with 21 non-blank lines the 21st receives the same marker
as the 1st (`"i. "` in the lower-case default). -/
theorem c7_roman_cycle :
    (∀ (text : List Char) (lower : Bool) (i : Nat),
        i < (splitLines text).length →
        isBlank ((splitLines text).getD i []) = false →
        (splitLines (formatRomanList text lower)).getD i [] =
          processLine ((splitLines text).getD i [])
            ((if lower then ROMAN_NUMERALS_LOWER else
                ROMAN_NUMERALS_UPPER).getD
                (countNB ((splitLines text).take i) % 20) [] ++
              ". ".toList)) ∧
    (splitLines
          (formatRomanList (joinLines (List.replicate 21 ['x'])) true)).getD
        20 [] = "i. x".toList ∧
    (splitLines
          (formatRomanList (joinLines (List.replicate 21 ['x'])) true)).getD
        0 [] = "i. x".toList := by
  refine ⟨?_, by decide, by decide⟩
  intro text lower i h hnb
  rw [splitLines_formatRomanList, getD_formatRomanLines lower 0 _ i h, hnb]
  simp

/-- Witness for C7 on the single-line text `"x"`. -/
theorem c7_roman_cycle_witness :
    (splitLines (formatRomanList "x".toList true)).getD 0 [] =
      processLine ((splitLines "x".toList).getD 0 [])
        (ROMAN_NUMERALS_LOWER.getD
            (countNB ((splitLines "x".toList).take 0) % 20) [] ++
          ". ".toList) :=
  c7_roman_cycle.1 "x".toList true 0 (by decide) (by decide)

/-- C8: `formatAlphabeticalList` gives the k-th non-blank line (0-based) the
letter with character code `base + (k mod 26)` where `base` is `'a'` (97)
or `'A'` (65), formatted `"{letter}. "`, cycling after `'z'`/`'Z'`; with 27
non-blank lines the 27th receives `"a. "` again in the lower-case
default. -/
theorem c8_alpha_cycle :
    (∀ (text : List Char) (lower : Bool) (i : Nat),
        i < (splitLines text).length →
        isBlank ((splitLines text).getD i []) = false →
        (splitLines (formatAlphabeticalList text lower)).getD i [] =
          processLine ((splitLines text).getD i [])
            (Char.ofNat ((if lower then 97 else 65) +
                countNB ((splitLines text).take i) % 26) :: ". ".toList)) ∧
    (splitLines (formatAlphabeticalList (joinLines (List.replicate 27 ['x']))
          true)).getD 26 [] = "a. x".toList := by
  refine ⟨?_, by decide⟩
  intro text lower i h hnb
  rw [splitLines_formatAlphabeticalList, getD_formatAlphaLines_init lower _ i h,
    hnb]
  simp

/-- Witness for C8 on the single-line text `"x"`. -/
theorem c8_alpha_cycle_witness :
    (splitLines (formatAlphabeticalList "x".toList true)).getD 0 [] =
      processLine ((splitLines "x".toList).getD 0 [])
        (Char.ofNat ((if true then 97 else 65) +
            countNB ((splitLines "x".toList).take 0) % 26) :: ". ".toList) :=
  c8_alpha_cycle.1 "x".toList true 0 (by decide) (by decide)

/-- C9: the five style functions are total Lean functions of the input
string (they always return a string, with no error path in the embedding),
and each returns the empty string on the empty string. -/
theorem c9_total_empty :
    (∀ (text : List Char) (lower : Bool),
        ∃ bullet numbered alpha roman checkbox : List Char,
          formatBulletList text = bullet ∧
          formatNumberedList text = numbered ∧
          formatAlphabeticalList text lower = alpha ∧
          formatRomanList text lower = roman ∧
          formatCheckboxList text = checkbox) ∧
    formatBulletList [] = [] ∧ formatNumberedList [] = [] ∧
    formatAlphabeticalList [] true = [] ∧
    formatAlphabeticalList [] false = [] ∧ formatRomanList [] true = [] ∧
    formatRomanList [] false = [] ∧ formatCheckboxList [] = [] := by
  refine ⟨fun text lower => ⟨_, _, _, _, _, rfl, rfl, rfl, rfl, rfl⟩,
    by decide, by decide, by decide, by decide, by decide, by decide,
    by decide⟩

/-- C10 (amended): the checkbox marker `"- [ ] "` is not a form
`PREFIX_REGEX` recognizes: on checkbox output only the leading `"- "` is
detected (as a bullet) and `"[ ] "` survives as residual content; hence
`formatBulletList ∘ formatCheckboxList = formatCheckboxList` on every text
whose only LineTerminator is the `'\n'` separator itself (on a line with a
bare CR, LS or PS the `(.*)$` tail blocks re-detection — see the
counterexample), while `formatCheckboxList` itself is not idempotent. -/
theorem c10_checkbox_marker_not_detected :
    PREFIX_REGEX_match "- [ ] old item".toList =
      some "[ ] old item".toList ∧
    (∀ text : List Char, (∀ c ∈ text, isLineTerm c = true → c = '\n') →
        formatBulletList (formatCheckboxList text) =
          formatCheckboxList text) ∧
    formatCheckboxList (formatCheckboxList "a".toList) ≠
      formatCheckboxList "a".toList := by
  refine ⟨by decide, ?_, by decide⟩
  intro text htext
  have h1 : formatBulletList (formatCheckboxList text) =
      joinLines (formatBulletLines (splitLines (formatCheckboxList text))) :=
    rfl
  rw [h1, splitLines_formatCheckboxList,
    formatBulletLines_checkbox (no_lineTerm_in_splitLines htext)]
  rfl

/-- Counterexample to C10's universal part as stated: on `"a\rb"` the
checkbox output `"- [ ] a\rb"` holds a carriage return, `(.*)$` keeps the
bullet pass from re-detecting the leading `"- "`, and a second marker is
prepended. -/
theorem c10_checkbox_marker_not_detected_counterexample :
    formatBulletList (formatCheckboxList "a\rb".toList) ≠
      formatCheckboxList "a\rb".toList ∧
    formatBulletList (formatCheckboxList "a\rb".toList) =
      "- - [ ] a\rb".toList := by
  constructor
  · decide
  · decide
